import Mathlib

/-!
Shallow embedding of SupportingFunctions.py (undersampled-MRI utilities):
sampling masks, per-slice k-space normalization, centered orthonormal
Fourier transforms, encode/decode operators, the NMSE metric, the
loader-split sizes, and the dataset item-access step.

Tensors are embedded as functions on finite index types (`Fin` for plain
array axes, `ZMod` where the Fourier shifts need modular index
arithmetic), complex entries as `ℂ`, and floating-point scalars as `ℝ`
(exact real arithmetic).  Sequential slice assignments of the Python code
become nested functional updates, innermost first.
-/

namespace SpecProof

set_option maxHeartbeats 1000000

/-- Elementwise slice assignment on a 2D tensor: entries whose index
satisfies the predicate are overwritten with the value, all other entries
keep the previous contents. -/
def setWhere {nx ny : ℕ} {α : Type} (P : Fin nx → Fin ny → Prop)
    [∀ i j, Decidable (P i j)] (v : α) (m : Fin nx → Fin ny → α) :
    Fin nx → Fin ny → α :=
  fun i j => if P i j then v else m i j

/-- The fixed autocalibration mask built in KneeDataset.__init__ (source
lines 50-54): start from zeros, then set to one the columns of stride R,
the first 18 columns, the last 18 columns, and the centered band of width
num_ACS, in that order (outermost update = last assignment). -/
def fixedMask (nx ny R nACS : ℕ) : Fin nx → Fin ny → ℂ :=
  setWhere (fun _ j => (ny - nACS) / 2 ≤ j.val ∧ j.val < (ny + nACS) / 2) 1
    (setWhere (fun _ j => ny - 18 ≤ j.val) 1
      (setWhere (fun _ j => j.val < 18) 1
        (setWhere (fun _ j => j.val % R = 0) 1
          (fun _ _ => 0))))

/-- torch.linspace: n evenly spaced points from a to b; for n = 1 the
single point is a (the Lean convention x / 0 = 0 gives exactly that). -/
noncomputable def linspace (a b : ℝ) (n : ℕ) : Fin n → ℝ :=
  fun i => a + (b - a) * i.val / ((n : ℝ) - 1)

/-- Maximum of a 2D real grid; zero for an empty grid (torch.max errors
there, so claims only use the nonempty case). -/
noncomputable def maxGrid {nx ny : ℕ} (z : Fin nx → Fin ny → ℝ) : ℝ :=
  if h : (Finset.univ : Finset (Fin nx × Fin ny)).Nonempty then
    Finset.sup' Finset.univ h (fun p => z p.1 p.2)
  else 0

/-- gauss_gen from the source: meshgrid of two linspaces over [-1, 1],
z = exp(-(x*x + y*y) / (2*sigma)), normalized by its maximum. -/
noncomputable def gauss_gen (nx ny : ℕ) (sigma : ℝ) : Fin nx → Fin ny → ℝ :=
  fun i j =>
    Real.exp (-((linspace (-1) 1 nx i ^ 2 + linspace (-1) 1 ny j ^ 2) / (2 * sigma))) /
      maxGrid (fun a b =>
        Real.exp (-((linspace (-1) 1 nx a ^ 2 + linspace (-1) 1 ny b ^ 2) / (2 * sigma))))

/-- The Gaussian-weighted thresholding `(random * gauss_kernel) > 0.6`
from KneeDataset.__getitem__ (source line 72). -/
noncomputable def threshMask {nx ny : ℕ} (draw : Fin nx → Fin ny → ℝ) :
    Fin nx → Fin ny → Bool :=
  fun i j => if draw i j * gauss_gen nx ny 0.5 i j > 0.6 then true else false

/-- The randomized mask built in KneeDataset.__getitem__ (source lines
69-77): threshold the Gaussian-weighted random field at 0.6, zero the
fixed 4x4 block (rows 158..161, columns 182..185), then set to one the
stride-R columns, the first 18 columns, the last 18 columns and the
centered num_ACS band, in that order. -/
noncomputable def randMask (nx ny R nACS : ℕ) (draw : Fin nx → Fin ny → ℝ) :
    Fin nx → Fin ny → Bool :=
  setWhere (fun _ j => (ny - nACS) / 2 ≤ j.val ∧ j.val < (ny + nACS) / 2) true
    (setWhere (fun _ j => ny - 18 ≤ j.val) true
      (setWhere (fun _ j => j.val < 18) true
        (setWhere (fun _ j => j.val % R = 0) true
          (setWhere (fun i j => (158 ≤ i.val ∧ i.val < 162) ∧ 182 ≤ j.val ∧ j.val < 186) false
            (threshMask draw)))))

/-- nmse from the source (lines 30-31): sum of squared differences divided
by the sum of squared reference entries.  When the reference energy is
zero the float division 0.0 / 0.0 produces nan (and c / 0.0 produces inf),
never a finite quotient; that non-finite path is modeled as none, the
finite quotient as some. -/
noncomputable def nmse {m : ℕ} (x xref : Fin m → ℂ) : Option ℂ :=
  if (∑ i, xref i ^ 2) = 0 then none
  else some ((∑ i, (x i - xref i) ^ 2) / (∑ i, xref i ^ 2))

/-- train_num from prepare_train_loaders (source line 100):
int(n_slices * 0.8), i.e. the floor of n * 0.8. -/
def train_num (n : ℕ) : ℕ := Nat.floor ((n : ℚ) * 0.8)

/-- valid_num from prepare_train_loaders (source line 101). -/
def valid_num (n : ℕ) : ℕ := n - train_num n

/-- Claim C1: for every random draw the randomized mask is one at every
stride-R column, at every column with index below 18, and at every one of
the last 18 columns, for all rows. -/
theorem c1_randMask_retained {nx ny R nACS : ℕ} (draw : Fin nx → Fin ny → ℝ)
    (i : Fin nx) (j : Fin ny)
    (hj : j.val % R = 0 ∨ j.val < 18 ∨ ny - 18 ≤ j.val) :
    randMask nx ny R nACS draw i j = true := by
  simp only [randMask, setWhere]
  split_ifs with h1 h2 h3 h4 h5
  · rfl
  · rfl
  · rfl
  · rfl
  · rcases hj with h | h | h
    · exact absurd h h4
    · exact absurd h h3
    · exact absurd h h2
  · rcases hj with h | h | h
    · exact absurd h h4
    · exact absurd h h3
    · exact absurd h h2

/-- Witness for C1 at concrete sizes: with the knee-data shapes, the
stride column 8 is retained for every draw. -/
theorem c1_randMask_retained_witness :
    randMask 320 368 4 24 (fun _ _ => 0) ⟨3, by norm_num⟩ ⟨8, by norm_num⟩ = true :=
  c1_randMask_retained (fun _ _ => 0) ⟨3, by norm_num⟩ ⟨8, by norm_num⟩ (Or.inl (by norm_num))

/-- Claim C2 is false as stated: at the knee-data sizes (Ny = 368,
num_ACS = 24) the centered autocalibration band covers columns 172..195,
so every entry of the 4x4 block zeroed at rows 158..161, columns 182..185
is overwritten back to one by the later band assignment; here the entry
(158, 184) of the randomized mask is one, not zero. -/
theorem c2_counterexample :
    randMask 320 368 4 24 (fun _ _ => 0) ⟨158, by norm_num⟩ ⟨184, by norm_num⟩ = true := by
  simp only [randMask, setWhere]
  norm_num

/-- Claim C2 amended: a 4x4-block entry of the randomized mask is zero
when its column is not otherwise retained, i.e. not a stride-R column,
not among the first 18 or last 18 columns, and not in the centered
num_ACS band. -/
theorem c2_randMask_block_zero {nx ny R nACS : ℕ} (draw : Fin nx → Fin ny → ℝ)
    (i : Fin nx) (j : Fin ny)
    (hij : (158 ≤ i.val ∧ i.val < 162) ∧ 182 ≤ j.val ∧ j.val < 186)
    (h1 : ¬ ((ny - nACS) / 2 ≤ j.val ∧ j.val < (ny + nACS) / 2))
    (h2 : ¬ (ny - 18 ≤ j.val)) (h3 : ¬ (j.val < 18)) (h4 : ¬ (j.val % R = 0)) :
    randMask nx ny R nACS draw i j = false := by
  simp only [randMask, setWhere]
  rw [if_neg h1, if_neg h2, if_neg h3, if_neg h4, if_pos hij]

/-- Witness for the amended C2: with Ny = 400 the block column 183 is not
retained by any of the forced assignments, so the block zero survives. -/
theorem c2_randMask_block_zero_witness :
    randMask 320 400 5 24 (fun _ _ => 0) ⟨158, by norm_num⟩ ⟨183, by norm_num⟩ = false :=
  c2_randMask_block_zero (fun _ _ => 0) ⟨158, by norm_num⟩ ⟨183, by norm_num⟩
    (by decide) (by decide) (by decide) (by decide) (by decide)

/-- Claim C5 is false as stated: for the all-zero tensor the reference
energy is zero, the program divides 0.0 by 0.0, and numpy returns nan,
not 0. -/
theorem c5_counterexample : nmse ((fun _ => 0) : Fin 1 → ℂ) (fun _ => 0) ≠ some 0 := by
  simp [nmse]

/-- Claim C5 amended: the normalized mean squared error of a tensor
against itself is zero whenever the reference energy, the sum of the
squared entries, is nonzero. -/
theorem c5_nmse_self {m : ℕ} (x : Fin m → ℂ) (hx : (∑ i, x i ^ 2) ≠ 0) :
    nmse x x = some 0 := by
  unfold nmse
  rw [if_neg hx]
  have h : ∀ i : Fin m, (x i - x i) ^ 2 = 0 := by
    intro i
    rw [sub_self]
    exact zero_pow two_ne_zero
  rw [Finset.sum_congr rfl (fun i _ => h i), Finset.sum_const, smul_zero, zero_div]

/-- Witness for the amended C5: a constant-one tensor has nonzero
reference energy and zero NMSE against itself. -/
theorem c5_nmse_self_witness : nmse ((fun _ => 1) : Fin 1 → ℂ) (fun _ => 1) = some 0 :=
  c5_nmse_self (fun _ => 1) (by simp)

/-- Claim C6: the loader split sizes add up to the number of slices, and
the training count is the floor of 0.8 times the total. -/
theorem c6_split_sizes (n : ℕ) :
    train_num n + valid_num n = n ∧ train_num n = Nat.floor ((0.8 : ℚ) * n) := by
  have h1 : (n : ℚ) * 0.8 ≤ (n : ℚ) :=
    mul_le_of_le_one_right (Nat.cast_nonneg n) (by norm_num)
  have hle : train_num n ≤ n := by
    unfold train_num
    calc Nat.floor ((n : ℚ) * 0.8) ≤ Nat.floor ((n : ℚ)) := Nat.floor_le_floor h1
      _ = n := Nat.floor_natCast n
  constructor
  · unfold valid_num
    omega
  · unfold train_num
    rw [mul_comm]

/-- Claim C8: the fixed autocalibration mask is one at every column of
the centered band of width num_ACS, for every row. -/
theorem c8_fixedMask_acs_band {nx ny R nACS : ℕ} (i : Fin nx) (j : Fin ny)
    (hj : (ny - nACS) / 2 ≤ j.val ∧ j.val < (ny + nACS) / 2) :
    fixedMask nx ny R nACS i j = 1 := by
  simp only [fixedMask, setWhere]
  rw [if_pos hj]

/-- Witness for C8 at the knee-data sizes: column 180 lies in the centered
band of width 24 of 368 columns. -/
theorem c8_fixedMask_acs_band_witness :
    fixedMask 320 368 4 24 ⟨0, by norm_num⟩ ⟨180, by norm_num⟩ = 1 :=
  c8_fixedMask_acs_band ⟨0, by norm_num⟩ ⟨180, by norm_num⟩ (by decide)

/-- torch.max(torch.abs(slice)) over one k-space slice: the maximum entry
magnitude; zero for an empty slice (torch.max errors there, so claims only
use the nonempty case). -/
noncomputable def maxAbsSlice {nx ny nc : ℕ} (x : Fin nx → Fin ny → Fin nc → ℂ) : ℝ :=
  if h : (Finset.univ : Finset (Fin nx × Fin ny × Fin nc)).Nonempty then
    Finset.sup' Finset.univ h (fun p => Complex.abs (x p.1 p.2.1 p.2.2))
  else 0

/-- One iteration of the normalization loop in KneeDataset.__init__
(source lines 61-62): divide the slice by its maximum magnitude. -/
noncomputable def normalizeSlice {nx ny nc : ℕ} (x : Fin nx → Fin ny → Fin nc → ℂ) :
    Fin nx → Fin ny → Fin nc → ℂ :=
  fun i j c => x i j c / ((maxAbsSlice x : ℝ) : ℂ)

/-- The stored k-space volume after KneeDataset.__init__: every slice is
normalized by its own maximum magnitude (before x0 and xref are computed
from it in the same loop iteration). -/
noncomputable def initKspace {ns nx ny nc : ℕ}
    (ks : Fin ns → Fin nx → Fin ny → Fin nc → ℂ) :
    Fin ns → Fin nx → Fin ny → Fin nc → ℂ :=
  fun i => normalizeSlice (ks i)

lemma maxAbsSlice_eq {nx ny nc : ℕ} (x : Fin nx → Fin ny → Fin nc → ℂ)
    (hne : (Finset.univ : Finset (Fin nx × Fin ny × Fin nc)).Nonempty) :
    maxAbsSlice x = Finset.sup' Finset.univ hne (fun p => Complex.abs (x p.1 p.2.1 p.2.2)) := by
  unfold maxAbsSlice
  rw [dif_pos hne]

lemma maxAbs_normalizeSlice {nx ny nc : ℕ} (x : Fin nx → Fin ny → Fin nc → ℂ)
    (h : ∃ a b c, x a b c ≠ 0) : maxAbsSlice (normalizeSlice x) = 1 := by
  obtain ⟨a, b, c, habc⟩ := h
  have hne : (Finset.univ : Finset (Fin nx × Fin ny × Fin nc)).Nonempty :=
    ⟨⟨a, b, c⟩, Finset.mem_univ _⟩
  have hMd := maxAbsSlice_eq x hne
  have hMpos : 0 < maxAbsSlice x := by
    have h1 : Complex.abs (x a b c) ≤ maxAbsSlice x := by
      rw [hMd]
      exact Finset.le_sup'
        (fun p : Fin nx × Fin ny × Fin nc => Complex.abs (x p.1 p.2.1 p.2.2))
        (Finset.mem_univ ⟨a, b, c⟩)
    exact lt_of_lt_of_le (Complex.abs.pos habc) h1
  have hcomp : maxAbsSlice (normalizeSlice x) =
      Finset.sup' Finset.univ hne
        (fun p => Complex.abs (x p.1 p.2.1 p.2.2) / maxAbsSlice x) := by
    rw [maxAbsSlice_eq (normalizeSlice x) hne]
    congr 1
    funext p
    show Complex.abs (x p.1 p.2.1 p.2.2 / ((maxAbsSlice x : ℝ) : ℂ)) = _
    rw [map_div₀, Complex.abs_ofReal, abs_of_pos hMpos]
  have g_sup : ∀ u v : ℝ, (u ⊔ v) / maxAbsSlice x = u / maxAbsSlice x ⊔ v / maxAbsSlice x := by
    intro u v
    rw [max_div_div_right hMpos.le]
  have hdist := Finset.comp_sup'_eq_sup'_comp hne
    (f := fun p : Fin nx × Fin ny × Fin nc => Complex.abs (x p.1 p.2.1 p.2.2))
    (fun r => r / maxAbsSlice x) g_sup
  simp only [Function.comp] at hdist
  rw [hcomp, ← hdist, ← hMd, div_self (ne_of_gt hMpos)]

/-- Claim C7: after construction, every slice of the stored k-space volume
with nonzero original data has maximum magnitude exactly one. -/
theorem c7_kspace_normalized {ns nx ny nc : ℕ}
    (ks : Fin ns → Fin nx → Fin ny → Fin nc → ℂ) (i : Fin ns)
    (h : ∃ a b c, ks i a b c ≠ 0) :
    maxAbsSlice (initKspace ks i) = 1 :=
  maxAbs_normalizeSlice (ks i) h

/-- Witness for C7: a constant-one single-entry slice normalizes to
maximum magnitude one. -/
theorem c7_kspace_normalized_witness :
    maxAbsSlice (initKspace (fun _ _ _ _ => 1 : Fin 1 → Fin 1 → Fin 1 → Fin 1 → ℂ)
      ⟨0, by norm_num⟩) = 1 :=
  c7_kspace_normalized (fun _ _ _ _ => 1) ⟨0, by norm_num⟩
    ⟨⟨0, by norm_num⟩, ⟨0, by norm_num⟩, ⟨0, by norm_num⟩, one_ne_zero⟩

/-- The n-th root of unity used by the discrete Fourier transform. -/
noncomputable def omega (n : ℕ) : ℂ := Complex.exp (2 * (Real.pi : ℂ) * Complex.I / n)

lemma omega_ne_zero (n : ℕ) : omega n ≠ 0 := Complex.exp_ne_zero _

lemma omega_isPrimitiveRoot (n : ℕ) [NeZero n] : IsPrimitiveRoot (omega n) n :=
  Complex.isPrimitiveRoot_exp n (NeZero.ne n)

lemma omega_pow_self (n : ℕ) [NeZero n] : omega n ^ n = 1 :=
  (omega_isPrimitiveRoot n).pow_eq_one

lemma omega_zpow_dvd {n : ℕ} [NeZero n] {m : ℤ} (h : (n : ℤ) ∣ m) : omega n ^ m = 1 := by
  obtain ⟨c, rfl⟩ := h
  rw [zpow_mul, zpow_natCast, omega_pow_self, one_zpow]

lemma omega_zpow_eq_one_iff {n : ℕ} [NeZero n] (m : ℤ) :
    omega n ^ m = 1 ↔ (n : ℤ) ∣ m := by
  constructor
  · intro h
    exact (omega_isPrimitiveRoot n).zpow_eq_one_iff_dvd m |>.mp h
  · exact omega_zpow_dvd

lemma range_eq_image_val (n : ℕ) [NeZero n] :
    Finset.range n = Finset.image ZMod.val (Finset.univ : Finset (ZMod n)) := by
  ext i
  simp only [Finset.mem_range, Finset.mem_image, Finset.mem_univ, true_and]
  constructor
  · intro hi
    exact ⟨(i : ZMod n), ZMod.val_cast_of_lt hi⟩
  · rintro ⟨k, rfl⟩
    exact ZMod.val_lt k

lemma sum_pow_val {n : ℕ} [NeZero n] (z : ℂ) :
    ∑ k : ZMod n, z ^ (ZMod.val k) = ∑ i ∈ Finset.range n, z ^ i := by
  rw [range_eq_image_val n, Finset.sum_image]
  intro a _ b _ hab
  exact ZMod.val_injective n hab

/-- Character orthogonality: the sum of the m-th character over all n-th
roots of unity is n when n divides m and zero otherwise. -/
lemma sum_char {n : ℕ} [NeZero n] (m : ℤ) :
    ∑ k : ZMod n, omega n ^ (m * (ZMod.val k : ℤ)) =
      if (n : ℤ) ∣ m then (n : ℂ) else 0 := by
  have hterm : ∀ k : ZMod n,
      omega n ^ (m * (ZMod.val k : ℤ)) = (omega n ^ m) ^ (ZMod.val k) := by
    intro k
    rw [zpow_mul, zpow_natCast]
  rw [Finset.sum_congr rfl (fun k _ => hterm k), sum_pow_val]
  by_cases hd : (n : ℤ) ∣ m
  · rw [if_pos hd, omega_zpow_dvd hd]
    simp
  · rw [if_neg hd]
    have h1 : omega n ^ m ≠ 1 := fun h => hd ((omega_zpow_eq_one_iff m).mp h)
    rw [geom_sum_eq h1]
    have h2 : (omega n ^ m) ^ n = 1 := by
      rw [← zpow_natCast (omega n ^ m) n, ← zpow_mul, mul_comm, zpow_mul, zpow_natCast,
        omega_pow_self, one_zpow]
    rw [h2, sub_self, zero_div]

/-- One-dimensional orthonormal DFT along an axis,
X[k] = (1/sqrt n) * sum_j x[j] * exp(-2 pi I j k / n), as computed by
torch.fft.fftn with norm equal to ortho. -/
noncomputable def dft1 {n : ℕ} [NeZero n] (x : ZMod n → ℂ) (k : ZMod n) : ℂ :=
  (∑ j : ZMod n, x j * omega n ^ (-((ZMod.val j : ℤ) * (ZMod.val k : ℤ)))) /
    ((Real.sqrt n : ℝ) : ℂ)

/-- One-dimensional orthonormal inverse DFT along an axis, as computed by
torch.fft.ifftn with norm equal to ortho. -/
noncomputable def idft1 {n : ℕ} [NeZero n] (x : ZMod n → ℂ) (j : ZMod n) : ℂ :=
  (∑ k : ZMod n, x k * omega n ^ ((ZMod.val j : ℤ) * (ZMod.val k : ℤ))) /
    ((Real.sqrt n : ℝ) : ℂ)

lemma val_cast_eq_self {n : ℕ} [NeZero n] (b : ZMod n) : ((ZMod.val b : ℕ) : ZMod n) = b :=
  ZMod.natCast_rightInverse b

lemma dvd_sub_val_iff {n : ℕ} [NeZero n] (a j : ZMod n) :
    ((n : ℤ) ∣ ((ZMod.val a : ℤ) - (ZMod.val j : ℤ))) ↔ j = a := by
  rw [← ZMod.intCast_zmod_eq_zero_iff_dvd]
  push_cast
  rw [val_cast_eq_self, val_cast_eq_self]
  constructor
  · intro h
    exact (sub_eq_zero.mp h).symm
  · intro h
    rw [h, sub_self]

/-- Fourier inversion in one dimension: the orthonormal inverse DFT
composed with the orthonormal DFT is the identity. -/
lemma idft1_dft1 {n : ℕ} [NeZero n] (x : ZMod n → ℂ) : idft1 (dft1 x) = x := by
  funext a
  unfold idft1 dft1
  have hn : ((n : ℕ) : ℂ) ≠ 0 := Nat.cast_ne_zero.mpr (NeZero.ne n)
  have hsq : ((Real.sqrt n : ℝ) : ℂ) * ((Real.sqrt n : ℝ) : ℂ) = ((n : ℕ) : ℂ) := by
    rw [← Complex.ofReal_mul, Real.mul_self_sqrt (Nat.cast_nonneg n)]
    norm_cast
  simp only [div_mul_eq_mul_div]
  rw [← Finset.sum_div, div_div, hsq]
  simp only [Finset.sum_mul]
  rw [Finset.sum_comm]
  have hc : ∀ j k : ZMod n,
      x j * omega n ^ (-((ZMod.val j : ℤ) * (ZMod.val k : ℤ))) *
          omega n ^ ((ZMod.val a : ℤ) * (ZMod.val k : ℤ)) =
        x j * omega n ^ (((ZMod.val a : ℤ) - (ZMod.val j : ℤ)) * (ZMod.val k : ℤ)) := by
    intro j k
    rw [mul_assoc, ← zpow_add₀ (omega_ne_zero n)]
    congr 1
    ring_nf
  rw [Finset.sum_congr rfl (fun j _ => Finset.sum_congr rfl (fun k _ => hc j k))]
  have hinner : ∀ j : ZMod n,
      ∑ k : ZMod n, x j * omega n ^ (((ZMod.val a : ℤ) - (ZMod.val j : ℤ)) * (ZMod.val k : ℤ)) =
        x j * (if j = a then ((n : ℕ) : ℂ) else 0) := by
    intro j
    rw [← Finset.mul_sum, sum_char]
    congr 1
    simp only [dvd_sub_val_iff]
  rw [Finset.sum_congr rfl (fun j _ => hinner j)]
  simp only [mul_ite, mul_zero]
  rw [Finset.sum_ite_eq']
  simp only [Finset.mem_univ, if_true]
  exact mul_div_cancel_right₀ (x a) hn

/-- Orthonormal DFT along tensor axis 1 of a [Nx, Ny, Nc] stack (the batch
axis of size one is dropped); the other axes ride along. -/
noncomputable def dftAx1 {u v w : ℕ} [NeZero u] (x : ZMod u → ZMod v → Fin w → ℂ) :
    ZMod u → ZMod v → Fin w → ℂ :=
  fun k j c => dft1 (fun i => x i j c) k

/-- Orthonormal DFT along tensor axis 2. -/
noncomputable def dftAx2 {u v w : ℕ} [NeZero v] (x : ZMod u → ZMod v → Fin w → ℂ) :
    ZMod u → ZMod v → Fin w → ℂ :=
  fun i k c => dft1 (fun j => x i j c) k

/-- Orthonormal inverse DFT along tensor axis 1. -/
noncomputable def idftAx1 {u v w : ℕ} [NeZero u] (x : ZMod u → ZMod v → Fin w → ℂ) :
    ZMod u → ZMod v → Fin w → ℂ :=
  fun k j c => idft1 (fun i => x i j c) k

/-- Orthonormal inverse DFT along tensor axis 2. -/
noncomputable def idftAx2 {u v w : ℕ} [NeZero v] (x : ZMod u → ZMod v → Fin w → ℂ) :
    ZMod u → ZMod v → Fin w → ℂ :=
  fun i k c => idft1 (fun j => x i j c) k

/-- torch.fft.fftshift along axis 1: roll by u / 2. -/
def fshift1 {u v w : ℕ} (x : ZMod u → ZMod v → Fin w → ℂ) :
    ZMod u → ZMod v → Fin w → ℂ :=
  fun i j c => x (i - ((u / 2 : ℕ) : ZMod u)) j c

/-- torch.fft.fftshift along axis 2: roll by v / 2. -/
def fshift2 {u v w : ℕ} (x : ZMod u → ZMod v → Fin w → ℂ) :
    ZMod u → ZMod v → Fin w → ℂ :=
  fun i j c => x i (j - ((v / 2 : ℕ) : ZMod v)) c

/-- torch.fft.ifftshift along axis 1: roll by minus u / 2. -/
def ifshift1 {u v w : ℕ} (x : ZMod u → ZMod v → Fin w → ℂ) :
    ZMod u → ZMod v → Fin w → ℂ :=
  fun i j c => x (i + ((u / 2 : ℕ) : ZMod u)) j c

/-- torch.fft.ifftshift along axis 2: roll by minus v / 2. -/
def ifshift2 {u v w : ℕ} (x : ZMod u → ZMod v → Fin w → ℂ) :
    ZMod u → ZMod v → Fin w → ℂ :=
  fun i j c => x i (j + ((v / 2 : ℕ) : ZMod v)) c

/-- fft2 from the source (line 9): fftshift after orthonormal fftn after
ifftshift, over the two spatial axes. -/
noncomputable def fft2 {u v w : ℕ} [NeZero u] [NeZero v]
    (x : ZMod u → ZMod v → Fin w → ℂ) : ZMod u → ZMod v → Fin w → ℂ :=
  fshift1 (fshift2 (dftAx2 (dftAx1 (ifshift1 (ifshift2 x)))))

/-- ifft2 from the source (line 13): ifftshift after orthonormal ifftn
after fftshift, over the two spatial axes. -/
noncomputable def ifft2 {u v w : ℕ} [NeZero u] [NeZero v]
    (x : ZMod u → ZMod v → Fin w → ℂ) : ZMod u → ZMod v → Fin w → ℂ :=
  ifshift1 (ifshift2 (idftAx1 (idftAx2 (fshift1 (fshift2 x)))))

lemma half_add_half {n : ℕ} [NeZero n] (hn : n % 2 = 0) :
    ((n / 2 : ℕ) : ZMod n) + ((n / 2 : ℕ) : ZMod n) = 0 := by
  rw [← Nat.cast_add]
  have h : n / 2 + n / 2 = n := by omega
  rw [h, ZMod.natCast_self]

lemma fshift1_fshift1 {u v w : ℕ} [NeZero u] (hu : u % 2 = 0)
    (x : ZMod u → ZMod v → Fin w → ℂ) : fshift1 (fshift1 x) = x := by
  funext i j c
  unfold fshift1
  rw [sub_sub, half_add_half hu, sub_zero]

lemma fshift2_fshift2 {u v w : ℕ} [NeZero v] (hv : v % 2 = 0)
    (x : ZMod u → ZMod v → Fin w → ℂ) : fshift2 (fshift2 x) = x := by
  funext i j c
  unfold fshift2
  rw [sub_sub, half_add_half hv, sub_zero]

lemma ifshift1_ifshift1 {u v w : ℕ} [NeZero u] (hu : u % 2 = 0)
    (x : ZMod u → ZMod v → Fin w → ℂ) : ifshift1 (ifshift1 x) = x := by
  funext i j c
  unfold ifshift1
  rw [add_assoc, half_add_half hu, add_zero]

lemma ifshift2_ifshift2 {u v w : ℕ} [NeZero v] (hv : v % 2 = 0)
    (x : ZMod u → ZMod v → Fin w → ℂ) : ifshift2 (ifshift2 x) = x := by
  funext i j c
  unfold ifshift2
  rw [add_assoc, half_add_half hv, add_zero]

lemma idftAx1_dftAx1 {u v w : ℕ} [NeZero u]
    (x : ZMod u → ZMod v → Fin w → ℂ) : idftAx1 (dftAx1 x) = x := by
  funext i j c
  have h := congrFun (idft1_dft1 (fun i => x i j c)) i
  simpa [idftAx1, dftAx1] using h

lemma idftAx2_dftAx2 {u v w : ℕ} [NeZero v]
    (x : ZMod u → ZMod v → Fin w → ℂ) : idftAx2 (dftAx2 x) = x := by
  funext i j c
  have h := congrFun (idft1_dft1 (fun j => x i j c)) j
  simpa [idftAx2, dftAx2] using h

/-- Shared inverse lemma: the centered orthonormal transform pair is an
exact inverse pair when both spatial sizes are even (the double fftshift
in the composition is a full roll only for even sizes). -/
lemma ifft2_fft2 {u v w : ℕ} [NeZero u] [NeZero v] (hu : u % 2 = 0) (hv : v % 2 = 0)
    (x : ZMod u → ZMod v → Fin w → ℂ) : ifft2 (fft2 x) = x := by
  unfold ifft2 fft2
  have hs4 : ∀ y : ZMod u → ZMod v → Fin w → ℂ,
      fshift1 (fshift2 (fshift1 (fshift2 y))) = y := by
    intro y
    have e1 : fshift1 (fshift2 (fshift1 (fshift2 y))) =
        fshift1 (fshift1 (fshift2 (fshift2 y))) := rfl
    rw [e1, fshift1_fshift1 hu, fshift2_fshift2 hv]
  have his4 : ∀ y : ZMod u → ZMod v → Fin w → ℂ,
      ifshift1 (ifshift2 (ifshift1 (ifshift2 y))) = y := by
    intro y
    have e1 : ifshift1 (ifshift2 (ifshift1 (ifshift2 y))) =
        ifshift1 (ifshift1 (ifshift2 (ifshift2 y))) := rfl
    rw [e1, ifshift1_ifshift1 hu, ifshift2_ifshift2 hv]
  rw [hs4, idftAx2_dftAx2, idftAx1_dftAx1, his4]

/-- encode from the source (lines 17-21): multiply the image by the coil
sensitivities (broadcast over the coil axis), Fourier-transform, and
multiply by the mask when one is given. -/
noncomputable def encode {u v w : ℕ} [NeZero u] [NeZero v]
    (x : ZMod u → ZMod v → ℂ) (S : ZMod u → ZMod v → Fin w → ℂ)
    (mask : Option (ZMod u → ZMod v → ℂ)) : ZMod u → ZMod v → Fin w → ℂ :=
  match mask with
  | none => fft2 (fun i j c => S i j c * x i j)
  | some m => fun i j c => fft2 (fun a b d => S a b d * x a b) i j c * m i j

/-- decode from the source (lines 25-26): inverse-transform each coil,
multiply by the conjugate sensitivities, and sum over the coil axis. -/
noncomputable def decode {u v w : ℕ} [NeZero u] [NeZero v]
    (y : ZMod u → ZMod v → Fin w → ℂ) (S : ZMod u → ZMod v → Fin w → ℂ) :
    ZMod u → ZMod v → ℂ :=
  fun i j => ∑ c : Fin w, ifft2 y i j c * star (S i j c)

/-- Claim C3: ifft2 after fft2 is the identity on complex [Nx, Ny, Nc]
stacks; the spatial sizes are even, as they are for the knee data. -/
theorem c3_ifft2_fft2 {u v w : ℕ} [NeZero u] [NeZero v] (hu : u % 2 = 0) (hv : v % 2 = 0)
    (x : ZMod u → ZMod v → Fin w → ℂ) : ifft2 (fft2 x) = x :=
  ifft2_fft2 hu hv x

/-- Witness for C3 at concrete even sizes. -/
theorem c3_ifft2_fft2_witness :
    ifft2 (fft2 ((fun _ _ _ => 1) : ZMod 2 → ZMod 2 → Fin 1 → ℂ)) = (fun _ _ _ => 1) :=
  c3_ifft2_fft2 (by decide) (by decide) ((fun _ _ _ => 1) : ZMod 2 → ZMod 2 → Fin 1 → ℂ)

/-- Claim C4: decode after unmasked encode recovers the image whenever the
sensitivity maps are orthonormal per pixel; the spatial sizes are even, as
they are for the knee data. -/
theorem c4_decode_encode {u v w : ℕ} [NeZero u] [NeZero v]
    (hu : u % 2 = 0) (hv : v % 2 = 0)
    (x : ZMod u → ZMod v → ℂ) (S : ZMod u → ZMod v → Fin w → ℂ)
    (hS : ∀ i j, ∑ c : Fin w, S i j c * star (S i j c) = 1) :
    decode (encode x S none) S = x := by
  funext i j
  unfold decode
  have he : encode x S none = fft2 (fun a b d => S a b d * x a b) := rfl
  rw [he, ifft2_fft2 hu hv]
  show ∑ c : Fin w, S i j c * x i j * star (S i j c) = x i j
  have h1 : ∀ c : Fin w, S i j c * x i j * star (S i j c) =
      S i j c * star (S i j c) * x i j := by
    intro c
    ring
  rw [Finset.sum_congr rfl (fun c _ => h1 c), ← Finset.sum_mul, hS i j, one_mul]

/-- Witness for C4 at concrete even sizes with a single unit coil. -/
theorem c4_decode_encode_witness :
    decode (encode ((fun _ _ => 1) : ZMod 2 → ZMod 2 → ℂ)
      ((fun _ _ _ => 1) : ZMod 2 → ZMod 2 → Fin 1 → ℂ) none) (fun _ _ _ => 1) =
      (fun _ _ => 1) :=
  c4_decode_encode (by decide) (by decide) (fun _ _ => 1) (fun _ _ _ => 1)
    (fun i j => by simp)

/-- Claim C9: encode with an absent mask is exactly the Fourier transform
of the sensitivity-weighted image, and with a present mask it is the same
multiplied elementwise by the mask. -/
theorem c9_encode_cases {u v w : ℕ} [NeZero u] [NeZero v]
    (x : ZMod u → ZMod v → ℂ) (S : ZMod u → ZMod v → Fin w → ℂ)
    (m : ZMod u → ZMod v → ℂ) :
    encode x S none = fft2 (fun i j c => S i j c * x i j) ∧
      encode x S (some m) =
        fun i j c => fft2 (fun a b d => S a b d * x a b) i j c * m i j :=
  ⟨rfl, rfl⟩

/-- Witness for C9 at concrete even sizes with a single unit coil. -/
theorem c9_encode_cases_witness :
    encode ((fun _ _ => 1) : ZMod 2 → ZMod 2 → ℂ)
        ((fun _ _ _ => 1) : ZMod 2 → ZMod 2 → Fin 1 → ℂ) none =
      fft2 (fun _ _ _ => (1 : ℂ) * 1) ∧
      encode ((fun _ _ => 1) : ZMod 2 → ZMod 2 → ℂ)
        ((fun _ _ _ => 1) : ZMod 2 → ZMod 2 → Fin 1 → ℂ) (some (fun _ _ => 1)) =
      fun i j c => fft2 ((fun _ _ _ => (1 : ℂ) * 1) : ZMod 2 → ZMod 2 → Fin 1 → ℂ) i j c * 1 :=
  c9_encode_cases (fun _ _ => 1) (fun _ _ _ => 1) (fun _ _ => 1)

/-- The mutable attributes of a KneeDataset object after construction:
the loaded and normalized tensors, the configuration scalars, and the
random-mask state written by item access. -/
structure KneeState (ns nx ny nc : ℕ) where
  kspace : Fin ns → Fin nx → Fin ny → Fin nc → ℂ
  sens_map : Fin ns → Fin nx → Fin ny → Fin nc → ℂ
  mask : Fin nx → Fin ny → ℂ
  x0 : Fin ns → Fin nx → Fin ny → ℂ
  xref : Fin ns → Fin nx → Fin ny → ℂ
  n_slices : ℕ
  num_ACS : ℕ
  R : ℕ
  gauss_kernel : Fin nx → Fin ny → ℝ
  random : Fin nx → Fin ny → ℝ
  rand_mask : Fin nx → Fin ny → Bool

/-- The tuple returned by KneeDataset.__getitem__ (source line 78). -/
structure ItemOut (ns nx ny nc : ℕ) where
  x0 : Fin nx → Fin ny → ℂ
  xref : Fin nx → Fin ny → ℂ
  kspace : Fin nx → Fin ny → Fin nc → ℂ
  sens_map : Fin nx → Fin ny → Fin nc → ℂ
  rand_mask : Fin nx → Fin ny → Bool
  index : Fin ns

/-- KneeDataset.__getitem__ (source lines 68-78) as an explicit state
transformer: the torch.rand draw is an input, the method overwrites the
gauss_kernel, random and rand_mask attributes of the object, and returns
the stored tensors of the requested slice together with the fresh
randomized mask. -/
noncomputable def getitem {ns nx ny nc : ℕ} (s : KneeState ns nx ny nc)
    (draw : Fin nx → Fin ny → ℝ) (index : Fin ns) :
    KneeState ns nx ny nc × ItemOut ns nx ny nc :=
  ({ s with
      gauss_kernel := gauss_gen nx ny 0.5,
      random := draw,
      rand_mask := randMask nx ny s.R s.num_ACS draw },
   { x0 := s.x0 index,
     xref := s.xref index,
     kspace := s.kspace index,
     sens_map := s.sens_map index,
     rand_mask := randMask nx ny s.R s.num_ACS draw,
     index := index })

/-- Claim C10: item access leaves every precomputed dataset field (x0,
xref, kspace, sens_map, the fixed mask, n_slices) unchanged for every
index and draw — only the fresh random-mask state is written — so repeated
accesses at the same index return the same x0, xref, kspace and sens_map. -/
theorem c10_getitem_frame {ns nx ny nc : ℕ} (s : KneeState ns nx ny nc)
    (d e : Fin nx → Fin ny → ℝ) (index : Fin ns) :
    ((getitem s d index).1.x0 = s.x0 ∧
     (getitem s d index).1.xref = s.xref ∧
     (getitem s d index).1.kspace = s.kspace ∧
     (getitem s d index).1.sens_map = s.sens_map ∧
     (getitem s d index).1.mask = s.mask ∧
     (getitem s d index).1.n_slices = s.n_slices) ∧
    ((getitem (getitem s d index).1 e index).2.x0 = (getitem s d index).2.x0 ∧
     (getitem (getitem s d index).1 e index).2.xref = (getitem s d index).2.xref ∧
     (getitem (getitem s d index).1 e index).2.kspace = (getitem s d index).2.kspace ∧
     (getitem (getitem s d index).1 e index).2.sens_map = (getitem s d index).2.sens_map) :=
  ⟨⟨rfl, rfl, rfl, rfl, rfl, rfl⟩, rfl, rfl, rfl, rfl⟩

end SpecProof
